import Mathlib

/-!
Verification of the stitchee group-flattening / concatenation pipeline.

This file gives a shallow embedding of the core functions of the
nasa/stitchee repository and proves (or refutes) the specified properties
about them.  Python strings are modelled as `List Char`; Python's
whitespace splitting (`str.split()`), separator splitting
(`str.split(sep)`), whitespace-run search (`re.findall(r"\s+", s)`) and
joining (`sep.join(...)`) are modelled by executable Lean functions with
the same observable behaviour on ASCII text.  Fallible Python code
(code that can raise) returns `Option`/`Except`.
-/

/-- Python string, modelled as its list of characters. -/
abbrev PyStr := List Char

/-- Character list of a Lean string literal (for stating concrete examples). -/
def pyStr (s : String) : PyStr := s.data

/-- ASCII whitespace, as recognised by Python's `str.split()` and the regex `\s`. -/
def isPySpace (c : Char) : Bool :=
  c = ' ' || c = '\t' || c = '\n' || c = '\r' || c = '\x0b' || c = '\x0c'

/-- Accumulator version of `wsRuns`: `cur` holds the reversed current whitespace run. -/
def wsRunsAux (cur : PyStr) : PyStr → List PyStr
  | [] => if cur = [] then [] else [cur.reverse]
  | c :: t =>
    if isPySpace c then wsRunsAux (c :: cur) t
    else if cur = [] then wsRunsAux [] t else cur.reverse :: wsRunsAux [] t

/-- Model of Python `re.findall(r"\s+", s)`: the maximal whitespace runs of `s`, in order. -/
def wsRuns (s : PyStr) : List PyStr := wsRunsAux [] s

/-- Accumulator version of `pySplitWs`: `cur` holds the reversed current token. -/
def pySplitWsAux (cur : PyStr) : PyStr → List PyStr
  | [] => if cur = [] then [] else [cur.reverse]
  | c :: t =>
    if isPySpace c then
      if cur = [] then pySplitWsAux [] t else cur.reverse :: pySplitWsAux [] t
    else pySplitWsAux (c :: cur) t

/-- Model of Python `s.split()` (no argument): split on whitespace runs, dropping empties. -/
def pySplitWs (s : PyStr) : List PyStr := pySplitWsAux [] s

/-- Model of Python `s.split(sep)` for a two-character separator `[a, b]`:
leftmost, non-overlapping scan. -/
def splitOnPair (a b : Char) : PyStr → List PyStr
  | [] => [[]]
  | [c] => [[c]]
  | c1 :: c2 :: t =>
    if c1 = a ∧ c2 = b then [] :: splitOnPair a b t
    else (splitOnPair a b (c2 :: t)).modifyHead (c1 :: ·)

/-- Model of Python `s.split("__")` (the default group delimiter). -/
def splitOnDD : PyStr → List PyStr := splitOnPair '_' '_'

/-- Model of Python `s.split("/")`. -/
def splitOnSlash : PyStr → List PyStr
  | [] => [[]]
  | c :: t => if c = '/' then [] :: splitOnSlash t else (splitOnSlash t).modifyHead (c :: ·)

/-- Model of Python `sep.join(parts)`. -/
def pyJoin (sep : PyStr) : List PyStr → PyStr
  | [] => []
  | [t] => t
  | t :: ts => t ++ sep ++ pyJoin sep ts

/-- Model of Python `s.replace("/", "__")` (the group delimiter at its default). -/
def pyReplaceSlash (s : PyStr) : PyStr :=
  s.flatMap fun c => if c = '/' then ['_', '_'] else [c]

namespace AttributeHandling

/-- Default group delimiter `GROUP_DELIM = "__"` from `concatenator/__init__.py`. -/
def GROUP_DELIM : PyStr := ['_', '_']

/-- Default coordinate delimiter `COORD_DELIM = "  "` from `concatenator/__init__.py`. -/
def COORD_DELIM : PyStr := [' ', ' ']

/-- Separator selection shared by both directions in
`concatenator/attribute_handling.py` (lines 43-47 and 86-90): reuse the
whitespace run found in the string when all runs are identical, else fall back
to `COORD_DELIM`.  Python indexes `whitespaces[0]` without an emptiness guard,
so a string without any whitespace raises `IndexError`; that is the `none` case. -/
def chooseSep (s : PyStr) : Option PyStr :=
  let whitespaces := wsRuns s
  if whitespaces.dedup.length ≤ 1 then whitespaces.head?
  else some COORD_DELIM

/-- Per-token transform of `_flatten_coordinate_attribute`:
`f'{GROUP_DELIM}{c.replace("/", GROUP_DELIM)}'`. -/
def flattenToken (c : PyStr) : PyStr := GROUP_DELIM ++ pyReplaceSlash c

/-- Per-token transform of `regroup_coordinate_attribute`:
`"/".join(c.split(GROUP_DELIM))[1:]`. -/
def regroupToken (c : PyStr) : PyStr := (pyJoin ['/'] (splitOnDD c)).drop 1

/-- Model of `_flatten_coordinate_attribute` (`concatenator/attribute_handling.py:67`),
with `none` for the `IndexError` raised on whitespace-free input. -/
def _flatten_coordinate_attribute (attribute_string : PyStr) : Option PyStr :=
  (chooseSep attribute_string).map fun new_sep =>
    pyJoin new_sep ((pySplitWs attribute_string).map flattenToken)

/-- Model of `regroup_coordinate_attribute` (`concatenator/attribute_handling.py:25`),
with `none` for the `IndexError` raised on whitespace-free input. -/
def regroup_coordinate_attribute (attribute_string : PyStr) : Option PyStr :=
  (chooseSep attribute_string).map fun new_sep =>
    pyJoin new_sep ((pySplitWs attribute_string).map regroupToken)

end AttributeHandling

namespace GroupHandling

/-- Model of the older `_flatten_coordinate_attribute`
(`concatenator/group_handling.py:258`), which splits on the literal
`COORD_DELIM` instead of discovering whitespace, and is total. -/
def _flatten_coordinate_attribute (attribute_string : PyStr) : PyStr :=
  pyJoin AttributeHandling.COORD_DELIM
    ((splitOnPair ' ' ' ' attribute_string).map AttributeHandling.flattenToken)

end GroupHandling

/-! Lemmas about the Python string primitives, used for the round-trip law. -/

/-- No two consecutive underscores, i.e. the group delimiter `__` does not occur. -/
def noDD : PyStr → Bool
  | [] => true
  | [_] => true
  | c1 :: c2 :: t => !(c1 = '_' && c2 = '_') && noDD (c2 :: t)

/-- Legality of a slash-delimited path token for the flatten/unflatten round trip:
nonempty, free of whitespace, and each `/`-separated segment neither contains the
group delimiter `__` nor ends in `_` (which would merge with an adjacent delimiter). -/
def LegalToken (t : PyStr) : Prop :=
  t ≠ [] ∧ (∀ c ∈ t, isPySpace c = false) ∧
    ∀ seg ∈ splitOnSlash t, noDD seg = true ∧ seg.getLast? ≠ some '_'

instance (t : PyStr) : Decidable (LegalToken t) := by
  unfold LegalToken; infer_instance

theorem pyJoin_cons (sep t : PyStr) (ts : List PyStr) (h : ts ≠ []) :
    pyJoin sep (t :: ts) = t ++ sep ++ pyJoin sep ts := by
  cases ts with
  | nil => exact absurd rfl h
  | cons t2 ts => rfl

theorem wsRunsAux_append_nonspace (t : PyStr) (h : ∀ c ∈ t, isPySpace c = false)
    (X : PyStr) : wsRunsAux [] (t ++ X) = wsRunsAux [] X := by
  induction t with
  | nil => rfl
  | cons c t ih =>
    have hc : isPySpace c = false := h c (by simp)
    simp only [List.cons_append, wsRunsAux, hc, Bool.false_eq_true, if_false, if_pos rfl]
    exact ih fun x hx => h x (by simp [hx])

theorem wsRunsAux_space_append (sep : PyStr) (hne : sep ≠ [])
    (hsp : ∀ c ∈ sep, isPySpace c = true) (rest : PyStr)
    (hrest : rest = [] ∨ ∃ c t, rest = c :: t ∧ isPySpace c = false) (cur : PyStr) :
    wsRunsAux cur (sep ++ rest) = (cur.reverse ++ sep) :: wsRunsAux [] rest := by
  induction sep generalizing cur with
  | nil => exact absurd rfl hne
  | cons c s ih =>
    have hc : isPySpace c = true := hsp c (by simp)
    cases s with
    | nil =>
      rcases hrest with h0 | ⟨d, t, hdt, hd⟩
      · subst h0; simp [wsRunsAux, hc]
      · subst hdt; simp [wsRunsAux, hc, hd]
    | cons c2 s2 =>
      have step : wsRunsAux cur ((c :: c2 :: s2) ++ rest)
          = wsRunsAux (c :: cur) ((c2 :: s2) ++ rest) := by
        simp [wsRunsAux, hc]
      rw [step, ih (by simp) (fun x hx => hsp x (by simp [hx])) (c :: cur)]
      simp

theorem wsRuns_pyJoin (sep : PyStr) (hne : sep ≠ [])
    (hsp : ∀ c ∈ sep, isPySpace c = true) (tokens : List PyStr)
    (htok : ∀ t ∈ tokens, t ≠ [] ∧ ∀ c ∈ t, isPySpace c = false) (h0 : tokens ≠ []) :
    wsRuns (pyJoin sep tokens) = List.replicate (tokens.length - 1) sep := by
  induction tokens with
  | nil => exact absurd rfl h0
  | cons t ts ih =>
    obtain ⟨htne, htns⟩ := htok t (by simp)
    cases ts with
    | nil =>
      show wsRunsAux [] (pyJoin sep [t]) = _
      have : pyJoin sep [t] = t ++ [] := by simp [pyJoin]
      rw [this, wsRunsAux_append_nonspace t htns]
      rfl
    | cons t2 ts2 =>
      obtain ⟨ht2ne, ht2ns⟩ := htok t2 (by simp)
      have hjoin : pyJoin sep (t :: t2 :: ts2) = t ++ (sep ++ pyJoin sep (t2 :: ts2)) := by
        rw [pyJoin_cons sep t (t2 :: ts2) (by simp)]; simp
      have hrest : pyJoin sep (t2 :: ts2) = [] ∨
          ∃ c u, pyJoin sep (t2 :: ts2) = c :: u ∧ isPySpace c = false := by
        obtain ⟨d, t2', rfl⟩ : ∃ d t2', t2 = d :: t2' := by
          cases t2 with
          | nil => exact absurd rfl ht2ne
          | cons d t2' => exact ⟨d, t2', rfl⟩
        cases ts2 with
        | nil => exact Or.inr ⟨d, t2', rfl, ht2ns d (by simp)⟩
        | cons t3 ts3 =>
          refine Or.inr ⟨d, t2' ++ sep ++ pyJoin sep (t3 :: ts3), ?_, ht2ns d (by simp)⟩
          rw [pyJoin_cons sep _ (t3 :: ts3) (by simp)]; simp
      show wsRunsAux [] _ = _
      rw [hjoin, wsRunsAux_append_nonspace t htns,
        wsRunsAux_space_append sep hne hsp _ hrest []]
      have := ih (fun x hx => htok x (by simp [hx])) (by simp)
      simp only [wsRuns] at this
      rw [this]
      simp [List.replicate_succ]

theorem pySplitWsAux_append_nonspace (t : PyStr) (h : ∀ c ∈ t, isPySpace c = false)
    (cur X : PyStr) : pySplitWsAux cur (t ++ X) = pySplitWsAux (t.reverse ++ cur) X := by
  induction t generalizing cur with
  | nil => simp
  | cons c t ih =>
    have hc : isPySpace c = false := h c (by simp)
    simp only [List.cons_append, pySplitWsAux, hc, Bool.false_eq_true, if_false, List.append_eq]
    rw [ih (fun x hx => h x (by simp [hx])) (c :: cur)]
    simp

theorem pySplitWsAux_space_skip (sep : PyStr) (hsp : ∀ c ∈ sep, isPySpace c = true)
    (rest : PyStr) : pySplitWsAux [] (sep ++ rest) = pySplitWsAux [] rest := by
  induction sep with
  | nil => rfl
  | cons c s ih =>
    have hc : isPySpace c = true := hsp c (by simp)
    simp only [List.cons_append, pySplitWsAux, hc, if_true, if_pos rfl]
    exact ih fun x hx => hsp x (by simp [hx])

theorem pySplitWsAux_space_cut (sep : PyStr) (hne : sep ≠ [])
    (hsp : ∀ c ∈ sep, isPySpace c = true) (rest cur : PyStr) (hcur : cur ≠ []) :
    pySplitWsAux cur (sep ++ rest) = cur.reverse :: pySplitWsAux [] rest := by
  cases sep with
  | nil => exact absurd rfl hne
  | cons c s =>
    have hc : isPySpace c = true := hsp c (by simp)
    simp only [List.cons_append, pySplitWsAux, hc, if_true, if_neg hcur, List.append_eq]
    rw [pySplitWsAux_space_skip s (fun x hx => hsp x (by simp [hx])) rest]

theorem pySplitWs_pyJoin (sep : PyStr) (hne : sep ≠ [])
    (hsp : ∀ c ∈ sep, isPySpace c = true) (tokens : List PyStr)
    (htok : ∀ t ∈ tokens, t ≠ [] ∧ ∀ c ∈ t, isPySpace c = false) :
    pySplitWs (pyJoin sep tokens) = tokens := by
  induction tokens with
  | nil => rfl
  | cons t ts ih =>
    obtain ⟨htne, htns⟩ := htok t (by simp)
    cases ts with
    | nil =>
      show pySplitWsAux [] (pyJoin sep [t]) = _
      have : pyJoin sep [t] = t ++ [] := by simp [pyJoin]
      rw [this, pySplitWsAux_append_nonspace t htns]
      simp [pySplitWsAux, htne]
    | cons t2 ts2 =>
      have hjoin : pyJoin sep (t :: t2 :: ts2) = t ++ (sep ++ pyJoin sep (t2 :: ts2)) := by
        rw [pyJoin_cons sep t (t2 :: ts2) (by simp)]; simp
      show pySplitWsAux [] _ = _
      rw [hjoin, pySplitWsAux_append_nonspace t htns,
        pySplitWsAux_space_cut sep hne hsp _ _ (by simp [htne])]
      have := ih fun x hx => htok x (by simp [hx])
      simp only [pySplitWs] at this
      rw [this]
      simp [htne]

theorem splitOnSlash_ne_nil : ∀ t : PyStr, splitOnSlash t ≠ []
  | [] => by simp [splitOnSlash]
  | c :: t => by
    by_cases hc : c = '/'
    · simp [splitOnSlash, hc]
    · simp only [splitOnSlash, if_neg hc]
      cases h : splitOnSlash t with
      | nil => exact absurd h (splitOnSlash_ne_nil t)
      | cons x xs => simp

theorem splitOnPair_ne_nil (a b : Char) : ∀ t : PyStr, splitOnPair a b t ≠ []
  | [] => by simp [splitOnPair]
  | [c] => by simp [splitOnPair]
  | c1 :: c2 :: t => by
    by_cases h : c1 = a ∧ c2 = b
    · simp [splitOnPair, h]
    · simp only [splitOnPair, if_neg h]
      cases hs : splitOnPair a b (c2 :: t) with
      | nil => exact absurd hs (splitOnPair_ne_nil a b (c2 :: t))
      | cons x xs => simp

theorem pyJoin_modifyHead (sep : PyStr) (c : Char) (l : List PyStr) (h : l ≠ []) :
    pyJoin sep (l.modifyHead (c :: ·)) = c :: pyJoin sep l := by
  match l with
  | [] => exact absurd rfl h
  | [t] => rfl
  | t :: t2 :: ts => rfl

theorem pyJoin_cons_of_ne (sep : PyStr) (l : List PyStr) (h : l ≠ []) :
    pyJoin sep ([] :: l) = sep ++ pyJoin sep l := by
  match l with
  | [] => exact absurd rfl h
  | t2 :: ts => rfl

theorem noDD_tail (c : Char) (s : PyStr) (h : noDD (c :: s) = true) : noDD s = true := by
  cases s with
  | nil => rfl
  | cons c2 t => exact (Bool.and_eq_true_iff.mp h).2

theorem splitOnPair_cons2 (a b c1 c2 : Char) (t : PyStr) (h : ¬(c1 = a ∧ c2 = b)) :
    splitOnPair a b (c1 :: c2 :: t) = (splitOnPair a b (c2 :: t)).modifyHead (c1 :: ·) := by
  simp only [splitOnPair]
  rw [if_neg h]

theorem splitOnPair_delim (a b : Char) (t : PyStr) :
    splitOnPair a b (a :: b :: t) = [] :: splitOnPair a b t := by
  simp [splitOnPair]

theorem splitOnDD_of_noDD : ∀ seg : PyStr, noDD seg = true → splitOnDD seg = [seg]
  | [], _ => rfl
  | [c], _ => rfl
  | c1 :: c2 :: t, h => by
    have hnd : ¬(c1 = '_' ∧ c2 = '_') := by
      intro ⟨h1, h2⟩
      simp only [noDD, h1, h2] at h
      simp at h
    show splitOnPair '_' '_' (c1 :: c2 :: t) = _
    rw [splitOnPair_cons2 _ _ _ _ _ hnd]
    have := splitOnDD_of_noDD (c2 :: t) (noDD_tail c1 (c2 :: t) h)
    simp only [splitOnDD] at this
    rw [this]
    rfl

theorem splitOnDD_seg_delim : ∀ seg : PyStr, noDD seg = true → seg.getLast? ≠ some '_' →
    ∀ r : PyStr, splitOnDD (seg ++ ['_', '_'] ++ r) = seg :: splitOnDD r
  | [], _, _, r => by
    show splitOnPair '_' '_' ('_' :: '_' :: r) = _
    rw [splitOnPair_delim]
    rfl
  | [c], _, hlast, r => by
    have hc : ¬(c = '_' ∧ ('_' : Char) = '_') := by
      intro ⟨h1, _⟩
      exact hlast (by simp [h1])
    show splitOnPair '_' '_' (c :: '_' :: ('_' :: r)) = _
    rw [splitOnPair_cons2 _ _ _ _ _ hc, splitOnPair_delim]
    rfl
  | c1 :: c2 :: t, h, hlast, r => by
    have hnd : ¬(c1 = '_' ∧ c2 = '_') := by
      intro ⟨h1, h2⟩
      simp only [noDD, h1, h2] at h
      simp at h
    have hrec := splitOnDD_seg_delim (c2 :: t) (noDD_tail c1 (c2 :: t) h)
      (by simpa using hlast) r
    simp only [splitOnDD, List.cons_append] at hrec ⊢
    rw [splitOnPair_cons2 _ _ _ _ _ hnd, hrec]
    rfl

theorem splitOnDD_pyJoin : ∀ segs : List PyStr, segs ≠ [] →
    (∀ seg ∈ segs, noDD seg = true ∧ seg.getLast? ≠ some '_') →
    splitOnDD (pyJoin ['_', '_'] segs) = segs
  | [], h, _ => absurd rfl h
  | [seg], _, hsegs => by
    simpa [pyJoin] using splitOnDD_of_noDD seg (hsegs seg (by simp)).1
  | seg :: seg2 :: segs, _, hsegs => by
    rw [pyJoin_cons _ _ (seg2 :: segs) (by simp)]
    obtain ⟨h1, h2⟩ := hsegs seg (by simp)
    rw [splitOnDD_seg_delim seg h1 h2 (pyJoin ['_', '_'] (seg2 :: segs)),
      splitOnDD_pyJoin (seg2 :: segs) (by simp) (fun x hx => hsegs x (by simp [hx]))]

theorem splitOnSlash_slash (t : PyStr) : splitOnSlash ('/' :: t) = [] :: splitOnSlash t := by
  simp [splitOnSlash]

theorem splitOnSlash_other (c : Char) (t : PyStr) (h : ¬c = '/') :
    splitOnSlash (c :: t) = (splitOnSlash t).modifyHead (c :: ·) := by
  simp [splitOnSlash, h]

theorem pyReplaceSlash_cons (c : Char) (t : PyStr) :
    pyReplaceSlash (c :: t) = (if c = '/' then ['_', '_'] else [c]) ++ pyReplaceSlash t := by
  simp [pyReplaceSlash]

theorem pyReplaceSlash_eq_pyJoin (t : PyStr) :
    pyReplaceSlash t = pyJoin ['_', '_'] (splitOnSlash t) := by
  induction t with
  | nil => rfl
  | cons c t ih =>
    rw [pyReplaceSlash_cons, ih]
    by_cases hc : c = '/'
    · subst hc
      rw [if_pos rfl, splitOnSlash_slash,
        pyJoin_cons_of_ne _ _ (splitOnSlash_ne_nil t)]
    · rw [if_neg hc, splitOnSlash_other c t hc,
        pyJoin_modifyHead _ _ _ (splitOnSlash_ne_nil t)]
      rfl

theorem pyJoin_slash_splitOnSlash (t : PyStr) :
    pyJoin ['/'] (splitOnSlash t) = t := by
  induction t with
  | nil => rfl
  | cons c t ih =>
    by_cases hc : c = '/'
    · subst hc
      rw [splitOnSlash_slash, pyJoin_cons_of_ne _ _ (splitOnSlash_ne_nil t), ih]
      rfl
    · rw [splitOnSlash_other c t hc, pyJoin_modifyHead _ _ _ (splitOnSlash_ne_nil t), ih]

namespace AttributeHandling

/-- Inversion of the per-token transforms: unflattening a flattened legal path
token recovers the token. -/
theorem regroupToken_flattenToken (t : PyStr) (h : LegalToken t) :
    regroupToken (flattenToken t) = t := by
  obtain ⟨_, _, hsegs⟩ := h
  have hflat : flattenToken t = pyJoin ['_', '_'] ([] :: splitOnSlash t) := by
    have h0 : flattenToken t = ['_', '_'] ++ pyReplaceSlash t := rfl
    rw [h0, pyReplaceSlash_eq_pyJoin, pyJoin_cons_of_ne _ _ (splitOnSlash_ne_nil t)]
  have hsplit : splitOnDD (flattenToken t) = [] :: splitOnSlash t := by
    rw [hflat]
    refine splitOnDD_pyJoin ([] :: splitOnSlash t) (by simp) ?_
    intro seg hseg
    rcases List.mem_cons.mp hseg with h0 | hmem
    · subst h0; exact ⟨rfl, by simp⟩
    · exact hsegs seg hmem
  have h1 : regroupToken (flattenToken t)
      = (pyJoin ['/'] (splitOnDD (flattenToken t))).drop 1 := rfl
  rw [h1, hsplit, pyJoin_cons_of_ne _ _ (splitOnSlash_ne_nil t)]
  have h2 : (['/'] ++ pyJoin ['/'] (splitOnSlash t)).drop 1
      = pyJoin ['/'] (splitOnSlash t) := by simp
  rw [h2, pyJoin_slash_splitOnSlash]

theorem flattenToken_ne_nil (t : PyStr) : flattenToken t ≠ [] := by
  simp [flattenToken, GROUP_DELIM]

theorem flattenToken_nonspace (t : PyStr) (h : ∀ c ∈ t, isPySpace c = false) :
    ∀ c ∈ flattenToken t, isPySpace c = false := by
  intro c hc
  rcases List.mem_append.mp hc with hd | hr
  · have hce : c = '_' ∨ c = '_' := by simpa [GROUP_DELIM] using hd
    rcases hce with rfl | rfl <;> decide
  · obtain ⟨x, hx, hcx⟩ := List.mem_flatMap.mp hr
    by_cases hslash : x = '/'
    · rw [if_pos hslash] at hcx
      have hce : c = '_' ∨ c = '_' := by simpa using hcx
      rcases hce with rfl | rfl <;> decide
    · rw [if_neg hslash] at hcx
      have hcex : c = x := by simpa using hcx
      rw [hcex]
      exact h x hx

/-- Replicated whitespace separators deduplicate to the separator alone. -/
theorem dedup_replicate_sep (n : Nat) (sep : PyStr) :
    (List.replicate (n + 1) sep).dedup = [sep] := by
  induction n with
  | zero => simp
  | succ k ih =>
    rw [List.replicate_succ, List.dedup_cons_of_mem (by simp [List.mem_replicate]), ih]

/-- Evaluation of `_flatten_coordinate_attribute` on a uniformly separated
token list with at least two tokens. -/
theorem flatten_coordinate_attribute_eval (sep : PyStr) (hne : sep ≠ [])
    (hsp : ∀ c ∈ sep, isPySpace c = true) (tokens : List PyStr)
    (htok : ∀ t ∈ tokens, t ≠ [] ∧ ∀ c ∈ t, isPySpace c = false)
    (hlen : 2 ≤ tokens.length) :
    _flatten_coordinate_attribute (pyJoin sep tokens)
      = some (pyJoin sep (tokens.map flattenToken)) := by
  obtain ⟨k, hk⟩ : ∃ k, tokens.length - 1 = k + 1 := ⟨tokens.length - 2, by omega⟩
  have hruns := wsRuns_pyJoin sep hne hsp tokens htok (by intro h0; subst h0; simp at hlen)
  rw [hk] at hruns
  unfold _flatten_coordinate_attribute chooseSep
  rw [hruns, pySplitWs_pyJoin sep hne hsp tokens htok]
  have hded : (sep :: List.replicate k sep).dedup = [sep] := by
    rw [← List.replicate_succ]
    exact dedup_replicate_sep k sep
  simp [hded, List.replicate_succ]

/-- Evaluation of `regroup_coordinate_attribute` on a uniformly separated
token list with at least two tokens. -/
theorem regroup_coordinate_attribute_eval (sep : PyStr) (hne : sep ≠ [])
    (hsp : ∀ c ∈ sep, isPySpace c = true) (tokens : List PyStr)
    (htok : ∀ t ∈ tokens, t ≠ [] ∧ ∀ c ∈ t, isPySpace c = false)
    (hlen : 2 ≤ tokens.length) :
    regroup_coordinate_attribute (pyJoin sep tokens)
      = some (pyJoin sep (tokens.map regroupToken)) := by
  obtain ⟨k, hk⟩ : ∃ k, tokens.length - 1 = k + 1 := ⟨tokens.length - 2, by omega⟩
  have hruns := wsRuns_pyJoin sep hne hsp tokens htok (by intro h0; subst h0; simp at hlen)
  rw [hk] at hruns
  unfold regroup_coordinate_attribute chooseSep
  rw [hruns, pySplitWs_pyJoin sep hne hsp tokens htok]
  have hded : (sep :: List.replicate k sep).dedup = [sep] := by
    rw [← List.replicate_succ]
    exact dedup_replicate_sep k sep
  simp [hded, List.replicate_succ]

end AttributeHandling

/-- C1 (amended): for every coordinate-reference-list string made of at least
two legal slash-path tokens joined by one uniform whitespace run, unflattening
the flattened form returns the string (and hence each path token) unchanged.
The single-token form of the claim fails: see the counterexample. -/
theorem C1_coordinate_round_trip (sep : PyStr) (tokens : List PyStr)
    (hsep : sep ≠ [] ∧ ∀ c ∈ sep, isPySpace c = true)
    (hlen : 2 ≤ tokens.length)
    (hleg : ∀ t ∈ tokens, LegalToken t) :
    (AttributeHandling._flatten_coordinate_attribute (pyJoin sep tokens)).bind
        AttributeHandling.regroup_coordinate_attribute
      = some (pyJoin sep tokens) := by
  obtain ⟨hne, hsp⟩ := hsep
  have htok : ∀ t ∈ tokens, t ≠ [] ∧ ∀ c ∈ t, isPySpace c = false := fun t ht =>
    ⟨(hleg t ht).1, (hleg t ht).2.1⟩
  rw [AttributeHandling.flatten_coordinate_attribute_eval sep hne hsp tokens htok hlen]
  show AttributeHandling.regroup_coordinate_attribute
    (pyJoin sep (tokens.map AttributeHandling.flattenToken)) = _
  have htok2 : ∀ t2 ∈ tokens.map AttributeHandling.flattenToken,
      t2 ≠ [] ∧ ∀ c ∈ t2, isPySpace c = false := by
    intro t2 ht2
    obtain ⟨t, ht, rfl⟩ := List.mem_map.mp ht2
    exact ⟨AttributeHandling.flattenToken_ne_nil t,
      AttributeHandling.flattenToken_nonspace t (htok t ht).2⟩
  rw [AttributeHandling.regroup_coordinate_attribute_eval sep hne hsp _ htok2
    (by simpa using hlen)]
  congr 1
  rw [List.map_map]
  have hmap : tokens.map (AttributeHandling.regroupToken ∘ AttributeHandling.flattenToken)
      = tokens.map id :=
    List.map_congr_left fun t ht =>
      AttributeHandling.regroupToken_flattenToken t (hleg t ht)
  rw [hmap, List.map_id]

/-- C1 witness: a concrete two-token coordinate list with legal paths round-trips. -/
theorem C1_coordinate_round_trip_witness :
    (AttributeHandling._flatten_coordinate_attribute
        (pyJoin (pyStr "  ") [pyStr "a/b", pyStr "c"])).bind
      AttributeHandling.regroup_coordinate_attribute
      = some (pyJoin (pyStr "  ") [pyStr "a/b", pyStr "c"]) :=
  C1_coordinate_round_trip (pyStr "  ") [pyStr "a/b", pyStr "c"]
    (by decide) (by decide) (by decide)

/-- C1 counterexample: for the legal slash path `a/b` taken on its own (no
internal whitespace), the flatten/unflatten composition does not return the
path; both directions raise `IndexError` (modelled as `none`), because
`whitespaces[0]` is taken from an empty list of whitespace runs. -/
theorem C1_single_path_counterexample :
    LegalToken (pyStr "a/b") ∧
    (AttributeHandling._flatten_coordinate_attribute (pyStr "a/b")).bind
        AttributeHandling.regroup_coordinate_attribute = none := by
  decide

/-- C6: on a single whitespace-free token the current
`_flatten_coordinate_attribute` and `regroup_coordinate_attribute` raise
`IndexError` (modelled as `none`) instead of totally returning the transformed
token, while the older `group_handling.py` revision of the flattener is total
and returns `__time` as the claim (and the unit tests) state. -/
theorem C6_single_token_behavior :
    AttributeHandling._flatten_coordinate_attribute (pyStr "time") = none ∧
    AttributeHandling.regroup_coordinate_attribute (pyStr "__time") = none ∧
    GroupHandling._flatten_coordinate_attribute (pyStr "time") = pyStr "__time" := by
  decide

namespace DatasetAndGroupHandling

/-- Model of `_calculate_chunks` (`concatenator/dataset_and_group_handling.py:282`,
identical in `concatenator/group_handling.py:304`): chunk sizes per dimension. -/
def _calculate_chunks (dim_sizes : List Nat) (default_low_dim_chunksize : Nat := 4000) :
    List Nat :=
  let number_of_dims := dim_sizes.length
  if number_of_dims ≤ 3 then
    dim_sizes.map fun s =>
      if s > default_low_dim_chunksize ∧ number_of_dims > 1 then default_low_dim_chunksize
      else s
  else
    dim_sizes.map fun s => if s > 500 then 500 else s

end DatasetAndGroupHandling

/-- C9: the chunk-size policy returns, for at most 3 dimensions, 4000 on each
axis longer than 4000 when there is more than one dimension and the axis's own
size otherwise (in particular a single-dimension variable keeps its full size),
and for more than 3 dimensions `min(size, 500)` on every axis. -/
theorem C9_chunk_policy (dim_sizes : List Nat) (i : Nat) (hi : i < dim_sizes.length) :
    (DatasetAndGroupHandling._calculate_chunks dim_sizes).length = dim_sizes.length ∧
    (dim_sizes.length ≤ 3 → 1 < dim_sizes.length →
      (DatasetAndGroupHandling._calculate_chunks dim_sizes).getD i 0
        = if 4000 < dim_sizes.getD i 0 then 4000 else dim_sizes.getD i 0) ∧
    (dim_sizes.length = 1 → DatasetAndGroupHandling._calculate_chunks dim_sizes = dim_sizes) ∧
    (3 < dim_sizes.length →
      (DatasetAndGroupHandling._calculate_chunks dim_sizes).getD i 0
        = min (dim_sizes.getD i 0) 500) := by
  unfold DatasetAndGroupHandling._calculate_chunks
  refine ⟨?_, ?_, ?_, ?_⟩
  · by_cases h : dim_sizes.length ≤ 3 <;> simp [h]
  · intro h3 h1
    rw [if_pos h3]
    rw [List.getD_eq_getElem?_getD, List.getElem?_map, List.getD_eq_getElem?_getD]
    cases hx : dim_sizes[i]? with
    | none => simp at hx; omega
    | some x =>
      simp only [Option.map_some', Option.getD_some]
      by_cases hgt : x > 4000
      · simp [hgt, h1]
      · simp [hgt]
  · intro h1
    match dim_sizes, h1 with
    | [s], _ => simp
  · intro h4
    rw [if_neg (by omega)]
    rw [List.getD_eq_getElem?_getD, List.getElem?_map, List.getD_eq_getElem?_getD]
    cases hx : dim_sizes[i]? with
    | none => simp at hx; omega
    | some x =>
      simp only [Option.map_some', Option.getD_some]
      by_cases hgt : x > 500
      · rw [if_pos hgt]; omega
      · rw [if_neg hgt]; omega

/-- C9 witness: chunk policy evaluated concretely (three dims with one long
axis, and a single long dimension left at its full size). -/
theorem C9_chunk_policy_witness :
    (DatasetAndGroupHandling._calculate_chunks [9000, 2]).getD 0 0 = 4000 ∧
    DatasetAndGroupHandling._calculate_chunks [9000] = [9000] ∧
    (DatasetAndGroupHandling._calculate_chunks [9000, 2, 2, 2]).getD 0 0 = 500 := by
  refine ⟨?_, ?_, ?_⟩
  · have h := C9_chunk_policy [9000, 2] 0 (by decide)
    rw [(h.2.1 (by decide) (by decide) : _)]
    decide
  · have h := C9_chunk_policy [9000] 0 (by decide)
    exact h.2.2.1 (by decide)
  · have h := C9_chunk_policy [9000, 2, 2, 2] 0 (by decide)
    rw [(h.2.2.2 (by decide) : _)]
    decide

namespace DimensionCleanup

/-- Variable of a flat netCDF dataset, for `remove_duplicate_dims`: its ordered
dimension-name list, its (flattened) data payload and its `_FillValue` (read
unconditionally by the source).  Attributes other than the fill value are not
tracked; the claim under verification concerns the dimension list, the cloned
dimension and the copied data. -/
structure NcFlatVar where
  dims : List String
  data : List Int
  fill : Int
deriving DecidableEq

/-- Flat netCDF dataset: root-level dimension table (name, size) and variable
table (name, variable; the source field `variables`), both in insertion order. -/
structure NcFlatDataset where
  dimensions : List (String × Nat)
  vars : List (String × NcFlatVar)
deriving DecidableEq

/-- Test for duplicated members used at `dimension_cleanup.py:28`:
`len(set(dim_list)) != len(dim_list)`. -/
def hasDup (dim_list : List String) : Bool :=
  dim_list.dedup.length ≠ dim_list.length

/-- Body of the second loop of `remove_duplicate_dims`
(`concatenator/dimension_cleanup.py:31-106`) for one variable that was found to
have duplicated dimensions: pick the first duplicated dimension (as
`collections.Counter` iterates in first-occurrence order), create the `_1`
dimension (and clone the coordinate variable if one exists), then delete and
recreate the variable with `new_dim_list = dim_list[:-1] + [dim_dup_new]` -
i.e. the last list position replaced, as in the source. -/
def processDupVar (ds : NcFlatDataset) (dup_var_name : String) (dup_var : NcFlatVar) :
    NcFlatDataset :=
  let dim_list := dup_var.dims
  match dim_list.find? (fun d => dim_list.count d > 1) with
  | none => ds
  | some dim_dup =>
    let dim_dup_length := (ds.dimensions.lookup dim_dup).getD 0
    let dim_dup_new := dim_dup ++ "_1"
    let new_dim_list := dim_list.dropLast ++ [dim_dup_new]
    let ds1 :=
      if (ds.dimensions.lookup dim_dup_new).isNone then
        let ds' : NcFlatDataset :=
          { ds with dimensions := ds.dimensions ++ [(dim_dup_new, dim_dup_length)] }
        match ds.vars.lookup dim_dup with
        | some coord_var =>
          { ds' with vars := ds'.vars ++
              [(dim_dup_new,
                { dims := [dim_dup_new], data := coord_var.data, fill := dup_var.fill })] }
        | none => ds'
      else ds
    { ds1 with vars :=
        (ds1.vars.filter fun p => p.1 ≠ dup_var_name) ++
          [(dup_var_name,
            { dims := new_dim_list, data := dup_var.data, fill := dup_var.fill })] }

/-- Model of `remove_duplicate_dims` (`concatenator/dimension_cleanup.py:11`):
collect the vars with duplicated dimensions, then repair each in turn. -/
def remove_duplicate_dims (nc_dataset : NcFlatDataset) : NcFlatDataset :=
  let dup_vars := nc_dataset.vars.filter fun p => hasDup p.2.dims
  dup_vars.foldl (fun acc p => processDupVar acc p.1 p.2) nc_dataset

/-- Modelled from the spec: the claim's repair rule, which replaces exactly the
LAST OCCURRENCE of the duplicated dimension in the list, leaving all other
positions unchanged. -/
def claimed_replace_last_occurrence (l : List String) (d newName : String) : List String :=
  (replaceFirst l.reverse).reverse
where
  replaceFirst : List String → List String
    | [] => []
    | x :: t => if x = d then newName :: t else x :: replaceFirst t

/-- Concrete flat dataset for the C2 failing input: dimension table
`D ↦ 2, E ↦ 3`, a coordinate variable for `D`, and a variable `v` declared with
dimensions `[D, D, E]` - duplicated `D` NOT in the last list position. -/
def dsC2 : NcFlatDataset :=
  { dimensions := [("D", 2), ("E", 3)],
    vars :=
      [("D", { dims := ["D"], data := [10, 20], fill := 0 }),
       ("v", { dims := ["D", "D", "E"], data := [1, 2, 3, 4, 5, 6, 7, 8, 9, 10, 11, 12],
               fill := 0 })] }

end DimensionCleanup

/-- C2: on a variable with dimension list `[D, D, E]`, `remove_duplicate_dims`
rebuilds the variable with dimensions `[D, D, D_1]` - it replaces the last
LIST POSITION (`E`), not the last occurrence of the duplicated dimension `D` -
so the result still contains a duplicate, contradicting both the claim and the
function's own docstring; the claim's rule would give `[D, D_1, E]`. -/
theorem C2_replaces_last_position_not_last_occurrence :
    ((DimensionCleanup.remove_duplicate_dims DimensionCleanup.dsC2).vars.lookup
        "v").map DimensionCleanup.NcFlatVar.dims = some ["D", "D", "D_1"] ∧
    DimensionCleanup.claimed_replace_last_occurrence ["D", "D", "E"] "D" "D_1"
      = ["D", "D_1", "E"] ∧
    DimensionCleanup.hasDup ["D", "D", "D_1"] = true ∧
    ((DimensionCleanup.remove_duplicate_dims DimensionCleanup.dsC2).dimensions.lookup
        "D_1") = some 2 ∧
    ((DimensionCleanup.remove_duplicate_dims DimensionCleanup.dsC2).vars.lookup
        "D_1").map DimensionCleanup.NcFlatVar.data = some [10, 20] := by
  decide

/-! Model of netCDF data content for the emptiness classifier. -/

/-- One array element: a masked-array mask flag plus the stored value
(`none` models NaN, so that both `x == fill` and `isnan` behave as in numpy). -/
structure NcElem where
  masked : Bool
  val : Option Int
deriving DecidableEq

/-- One netCDF variable as read back by `var[:]`: whether the read returns a
masked array, the declared `_FillValue` (`none` models an absent attribute, for
which the source compares against `np.nan`), and the flattened elements. -/
structure NcVar where
  isMaskedArr : Bool
  fill : Option Int
  elems : List NcElem
deriving DecidableEq

/-- Model of numpy equality `x == f` for scalars where `none` is NaN:
NaN compares unequal to everything, including itself. -/
def npEq : Option Int → Option Int → Bool
  | some a, some b => a == b
  | _, _ => false

mutual
/-- Group of a hierarchical netCDF container: named variables plus child groups. -/
inductive NcGroup where
  | mk (vars : List (String × NcVar)) (children : NcGroupList)
deriving DecidableEq
/-- List of child groups (a separate inductive so that all recursion is structural). -/
inductive NcGroupList where
  | nil
  | cons (g : NcGroup) (t : NcGroupList)
deriving DecidableEq
end

/-- Whether a variable's `mask.all()` holds. -/
def allMasked (v : NcVar) : Bool := v.elems.all (·.masked)

/-- Whether `np.all(np.isnan(data))` holds for the variable's stored data. -/
def allNaN (v : NcVar) : Bool := v.elems.all fun e => e.val.isNone

/-- Whether `np.all(data == fill_or_null)` holds for the variable's stored data. -/
def allFill (v : NcVar) : Bool := v.elems.all fun e => npEq e.val v.fill

/-- An element holding a real value with respect to its variable: unmasked,
non-NaN and different from the fill value. -/
def realElem (v : NcVar) (e : NcElem) : Bool :=
  !e.masked && e.val.isSome && !npEq e.val v.fill

/-- Whether some element of the variable is a real (non-fill, non-NaN,
unmasked) value. -/
def varHasReal (v : NcVar) : Bool := v.elems.any (realElem v)

mutual
/-- Whether some variable in the group tree holds at least one real value. -/
def groupHasReal : NcGroup → Bool
  | .mk vars children => vars.any (fun p => varHasReal p.2) || groupListHasReal children
def groupListHasReal : NcGroupList → Bool
  | .nil => false
  | .cons g t => groupHasReal g || groupListHasReal t
end

/-- The claim's per-variable emptiness: zero-size, all-fill-value, all-NaN, or
an all-masked masked array. -/
def emptyishVar (v : NcVar) : Bool :=
  v.elems.isEmpty || allFill v || allNaN v || (v.isMaskedArr && allMasked v)

mutual
/-- The claim's recursive emptiness over the whole tree. -/
def allEmptyish : NcGroup → Bool
  | .mk vars children => vars.all (fun p => emptyishVar p.2) && allEmptyishList children
def allEmptyishList : NcGroupList → Bool
  | .nil => true
  | .cons g t => allEmptyish g && allEmptyishList t
end

/-- The netCDF4 auto-masking invariant for data read with masking enabled: in a
masked-array variable an element is masked exactly when its stored value equals
the declared fill value, and a non-masked-array read has no masked elements. -/
def autoMaskOkVar (v : NcVar) : Bool :=
  if v.isMaskedArr then v.elems.all fun e => e.masked == npEq e.val v.fill
  else v.elems.all fun e => !e.masked

mutual
/-- Auto-masking invariant over the whole tree. -/
def autoMaskOk : NcGroup → Bool
  | .mk vars children => vars.all (fun p => autoMaskOkVar p.2) && autoMaskOkList children
def autoMaskOkList : NcGroupList → Bool
  | .nil => true
  | .cons g t => autoMaskOk g && autoMaskOkList t
end

namespace StitcheeFileOps

/-- Per-variable step of the loop in `_is_file_empty`
(`src/stitchee/file_ops.py:171-192`): `true` means the loop continues (the
variable looks empty), `false` means the function returns `False`. -/
def varPasses (var : NcVar) : Bool :=
  if var.elems.length = 0 then true
  else if var.isMaskedArr && !allMasked var && !allNaN var then false
  else if !allFill var && !allNaN var then false
  else true

mutual
/-- Model of `_is_file_empty` (`src/stitchee/file_ops.py:152`): every variable
must pass the emptiness checks and every child group must be empty, recursively. -/
def _is_file_empty : NcGroup → Bool
  | .mk vars children => vars.all (fun p => varPasses p.2) && childrenEmpty children
/-- Recursion of `_is_file_empty` over ALL child groups
(`for child_group in parent_group.groups.values(): if not _is_file_empty(...)`). -/
def childrenEmpty : NcGroupList → Bool
  | .nil => true
  | .cons g t => _is_file_empty g && childrenEmpty t
end
end StitcheeFileOps

namespace LegacyFileOps

/-- Per-variable emptiness of the legacy `_is_file_empty`
(`concatenator/dataset_and_group_handling.py:370-389`, identical in
`concatenator/file_ops.py:108`): one of the "three ways" must hold, else
`False` is returned. -/
def varPasses (var : NcVar) : Bool :=
  if var.elems.length ≠ 0 then
    (var.isMaskedArr && allMasked var) || allFill var || allNaN var
  else true

/-- Model of the legacy `_is_file_empty`
(`concatenator/dataset_and_group_handling.py:359`): after the variable loop the
function executes `for child_group in ...: return _is_file_empty(child_group)`,
so it recurses into the FIRST child group only and ignores all later siblings. -/
def _is_file_empty : NcGroup → Bool
  | .mk vars .nil => vars.all fun p => varPasses p.2
  | .mk vars (.cons g _) => (vars.all fun p => varPasses p.2) && _is_file_empty g

end LegacyFileOps

theorem varPasses_of_emptyish (v : NcVar) (hmask : autoMaskOkVar v = true)
    (h : emptyishVar v = true) : StitcheeFileOps.varPasses v = true := by
  unfold StitcheeFileOps.varPasses
  by_cases h0 : v.elems.length = 0
  · rw [if_pos h0]
  · rw [if_neg h0]
    rcases Bool.or_eq_true_iff.mp h with h1 | h4
    · rcases Bool.or_eq_true_iff.mp h1 with h2 | h3
      · rcases Bool.or_eq_true_iff.mp h2 with h5 | h6
        · exact absurd (by simpa [List.isEmpty_iff_length_eq_zero] using h5) h0
        · -- all fill
          have hmA : v.isMaskedArr = true → allMasked v = true := by
            intro hM
            rw [autoMaskOkVar, if_pos hM] at hmask
            rw [allMasked]
            refine List.all_eq_true.mpr fun e he => ?_
            have := List.all_eq_true.mp hmask e he
            have hf := List.all_eq_true.mp h6 e he
            simpa [hf] using this
          by_cases hM : v.isMaskedArr = true
          · rw [if_neg (by simp [hM, hmA hM]), if_neg (by simp [h6])]
          · rw [if_neg (by simp [Bool.eq_false_iff.mpr hM]), if_neg (by simp [h6])]
      · -- all NaN
        rw [if_neg (by simp [h3]), if_neg (by simp [h3])]
    · -- masked array, all masked
      have hM : v.isMaskedArr = true := (Bool.and_eq_true_iff.mp h4).1
      have hAM : allMasked v = true := (Bool.and_eq_true_iff.mp h4).2
      have hAF : allFill v = true := by
        rw [autoMaskOkVar, if_pos hM] at hmask
        rw [allFill]
        refine List.all_eq_true.mpr fun e he => ?_
        have h1 := List.all_eq_true.mp hmask e he
        have h2 := List.all_eq_true.mp hAM e he
        rw [h2] at h1
        simpa using h1.symm
      rw [if_neg (by simp [hAM]), if_neg (by simp [hAF])]

theorem emptyish_of_varPasses (v : NcVar) (h : StitcheeFileOps.varPasses v = true) :
    emptyishVar v = true := by
  by_contra hne
  have hne' : emptyishVar v = false := Bool.eq_false_iff.mpr hne
  unfold emptyishVar at hne'
  simp only [Bool.or_eq_false_iff] at hne'
  obtain ⟨⟨⟨hlen, hfill⟩, hnan⟩, _⟩ := hne'
  unfold StitcheeFileOps.varPasses at h
  rw [if_neg (by simpa [List.isEmpty_iff_length_eq_zero] using hlen)] at h
  by_cases hc1 : v.isMaskedArr && !allMasked v && !allNaN v
  · rw [if_pos hc1] at h; exact Bool.false_ne_true h
  · rw [if_neg hc1, if_pos (by simp [hfill, hnan])] at h
    exact Bool.false_ne_true h

theorem not_emptyish_of_real (v : NcVar) (h : varHasReal v = true) :
    emptyishVar v = false := by
  obtain ⟨e, he, hre⟩ := List.any_eq_true.mp h
  have hm : e.masked = false := by
    have := (Bool.and_eq_true_iff.mp ((Bool.and_eq_true_iff.mp hre).1)).1
    simpa using this
  have hs : e.val.isSome = true := (Bool.and_eq_true_iff.mp ((Bool.and_eq_true_iff.mp hre).1)).2
  have hf : npEq e.val v.fill = false := by
    have := (Bool.and_eq_true_iff.mp hre).2
    simpa using this
  unfold emptyishVar
  simp only [Bool.or_eq_false_iff]
  refine ⟨⟨⟨?_, ?_⟩, ?_⟩, ?_⟩
  · cases hv : v.elems with
    | nil => rw [hv] at he; simp at he
    | cons x t => simp [hv]
  · refine (Bool.eq_false_iff).mpr fun hall => ?_
    have := List.all_eq_true.mp hall e he
    rw [hf] at this
    exact Bool.false_ne_true this
  · refine (Bool.eq_false_iff).mpr fun hall => ?_
    have := List.all_eq_true.mp hall e he
    rw [Option.isNone_iff_eq_none] at this
    rw [this] at hs
    simp at hs
  · refine (Bool.eq_false_iff).mpr fun hall => ?_
    have := List.all_eq_true.mp (Bool.and_eq_true_iff.mp hall).2 e he
    rw [hm] at this
    exact Bool.false_ne_true this

mutual
theorem stitchee_empty_iff_group : ∀ g : NcGroup, autoMaskOk g = true →
    (StitcheeFileOps._is_file_empty g = true ↔ allEmptyish g = true)
  | .mk vars children, h => by
    have hsplit := Bool.and_eq_true_iff.mp (show (_ && _) = true from h)
    have hmv : ∀ p ∈ vars, autoMaskOkVar p.2 = true :=
      fun p hp => List.all_eq_true.mp hsplit.1 p hp
    have hrec := stitchee_empty_iff_list children hsplit.2
    show (vars.all (fun p => StitcheeFileOps.varPasses p.2)
        && StitcheeFileOps.childrenEmpty children) = true ↔
      (vars.all (fun p => emptyishVar p.2) && allEmptyishList children) = true
    simp only [Bool.and_eq_true_iff]
    constructor
    · rintro ⟨h1, h2⟩
      exact ⟨List.all_eq_true.mpr fun p hp =>
        emptyish_of_varPasses p.2 (List.all_eq_true.mp h1 p hp), hrec.mp h2⟩
    · rintro ⟨h1, h2⟩
      exact ⟨List.all_eq_true.mpr fun p hp =>
        varPasses_of_emptyish p.2 (hmv p hp) (List.all_eq_true.mp h1 p hp), hrec.mpr h2⟩

theorem stitchee_empty_iff_list : ∀ l : NcGroupList, autoMaskOkList l = true →
    (StitcheeFileOps.childrenEmpty l = true ↔ allEmptyishList l = true)
  | .nil, _ => by
    show (true = true ↔ true = true)
    rfl
  | .cons g t, h => by
    have hsplit := Bool.and_eq_true_iff.mp (show (_ && _) = true from h)
    have ih1 := stitchee_empty_iff_group g hsplit.1
    have ih2 := stitchee_empty_iff_list t hsplit.2
    show (StitcheeFileOps._is_file_empty g && StitcheeFileOps.childrenEmpty t) = true ↔
      (allEmptyish g && allEmptyishList t) = true
    simp only [Bool.and_eq_true_iff]
    exact and_congr ih1 ih2
end

mutual
theorem hasReal_not_emptyish_group : ∀ g : NcGroup, groupHasReal g = true →
    allEmptyish g = false
  | .mk vars children, h => by
    show (vars.all (fun p => emptyishVar p.2) && allEmptyishList children) = false
    rcases Bool.or_eq_true_iff.mp (show (_ || _) = true from h) with hv | hc
    · obtain ⟨p, hp, hre⟩ := List.any_eq_true.mp hv
      have : (vars.all fun p => emptyishVar p.2) = false := by
        refine Bool.eq_false_iff.mpr fun hall => ?_
        have := List.all_eq_true.mp hall p hp
        rw [not_emptyish_of_real p.2 hre] at this
        exact Bool.false_ne_true this
      simp [this]
    · simp [hasReal_not_emptyish_list children hc]

theorem hasReal_not_emptyish_list : ∀ l : NcGroupList, groupListHasReal l = true →
    allEmptyishList l = false
  | .cons g t, h => by
    show (allEmptyish g && allEmptyishList t) = false
    rcases Bool.or_eq_true_iff.mp (show (_ || _) = true from h) with hg | ht
    · simp [hasReal_not_emptyish_group g hg]
    · simp [hasReal_not_emptyish_list t ht]
end

/-- C3 (amended): under the netCDF4 auto-masking invariant, the current
`_is_file_empty` of `src/stitchee/file_ops.py` classifies a container as empty
exactly when every variable of every group (at any depth, any sibling
position) is zero-size, all-fill-value, all-NaN, or all-masked; in particular
a real (non-fill, non-NaN, unmasked) value in any variable of any group,
including a non-first child group, makes it return `False`.  The legacy
`concatenator` version recurses into the first child group only, so the claim
as stated fails for it (see the counterexample). -/
theorem C3_emptiness_classification (g : NcGroup) (h : autoMaskOk g = true) :
    (StitcheeFileOps._is_file_empty g = true ↔ allEmptyish g = true) ∧
    (groupHasReal g = true → StitcheeFileOps._is_file_empty g = false) := by
  refine ⟨stitchee_empty_iff_group g h, fun hr => ?_⟩
  have hne := hasReal_not_emptyish_group g hr
  cases hfe : StitcheeFileOps._is_file_empty g with
  | false => rfl
  | true =>
    have := (stitchee_empty_iff_group g h).mp hfe
    rw [hne] at this
    exact absurd this (Bool.false_ne_true)

/-- Concrete container for the C3 witness: a fully-masked fill-valued variable
at the root and an all-NaN variable in a child group. -/
def gC3w : NcGroup :=
  .mk [("a", { isMaskedArr := true, fill := some 5,
               elems := [{ masked := true, val := some 5 }] })]
    (.cons (.mk [("b", { isMaskedArr := false, fill := none,
                         elems := [{ masked := false, val := none }] })] .nil) .nil)

/-- C3 witness: the amended theorem applied to a concrete container satisfying
the auto-masking invariant. -/
theorem C3_emptiness_classification_witness :
    (StitcheeFileOps._is_file_empty gC3w = true ↔ allEmptyish gC3w = true) ∧
    (groupHasReal gC3w = true → StitcheeFileOps._is_file_empty gC3w = false) :=
  C3_emptiness_classification gC3w (by decide)

/-- Concrete container for the C3 counterexample: the root has two child
groups; the first is empty, the second holds a variable with the real value 7
(fill value 5). -/
def gC3bad : NcGroup :=
  .mk [] (.cons (.mk [] .nil)
    (.cons (.mk [("x", { isMaskedArr := false, fill := some 5,
                         elems := [{ masked := false, val := some 7 }] })] .nil) .nil))

/-- C3 counterexample: the legacy `_is_file_empty`
(`concatenator/dataset_and_group_handling.py:359`) returns `True` for a
container holding a real value in its second (non-first) child group, because
its recursion `for child_group in ...: return _is_file_empty(child_group)`
inspects only the first child; the current stitchee version returns `False`. -/
theorem C3_first_child_only_counterexample :
    LegacyFileOps._is_file_empty gC3bad = true ∧
    groupHasReal gC3bad = true ∧
    StitcheeFileOps._is_file_empty gC3bad = false := by
  decide

/-! Model of the concatenation orchestrator (`src/stitchee/concatenate.py`) and
the file-level validation helpers it calls.  File-system and xarray behaviour
is abstracted into per-file data: whether the file opens, the netCDF content
seen by `nc.Dataset` (for the emptiness check) and the datatree content seen by
`xr.open_datatree` (node keys and flattened per-variable values).  Input paths
are taken to be existing data-file paths, for which `validate_input_path`
resolves to the same list and performs no dataset opens.  Side effects are
recorded in an explicit trace. -/

/-- Datatree view of one input file: its dataset node keys (as returned by
`datatree.to_dict().keys()`) and its variables with flattened values. -/
structure DTree where
  nodes : List String
  vars : List (String × List Int)
deriving DecidableEq

/-- One input file as the pipeline observes it. -/
structure InFile where
  path : String
  openable : Bool
  tree : NcGroup
  dtree : DTree
deriving DecidableEq

/-- Python errors that the modelled pipeline can raise. -/
inductive PyError where
  | valueError (msg : String)
  | keyError (msg : String)
  | indexError
  | typeError (msg : String)
  | fileExistsError
  | osError
deriving DecidableEq

/-- Observable side effects of the pipeline, in order. -/
inductive Effect where
  | openDataset (path : String)
  | removeExisting (path : String)
  | copyFile (src dst : String)
  | writeOutput (path : String)
deriving DecidableEq

/-- Python truthiness test `not sorting_variable` for an optional string. -/
def pyFalsy : Option String → Bool
  | none => true
  | some s => s == ""

/-- Output-path state: whether the resolved path is a directory or an existing file. -/
structure OutSpec where
  path : String
  isDir : Bool
  isFile : Bool
deriving DecidableEq

namespace StitcheeFileOps

/-- Model of `validate_output_path` (`src/stitchee/file_ops.py:19`). -/
def validate_output_path (out : OutSpec) (overwrite : Bool) :
    List Effect × Except PyError String :=
  if out.isDir then ([], .error (.typeError "Output path is a directory"))
  else if out.isFile && !overwrite then ([], .error .fileExistsError)
  else if out.isFile && overwrite then ([.removeExisting out.path], .ok out.path)
  else ([], .ok out.path)

/-- Model of `validate_workable_files` (`src/stitchee/file_ops.py:89`): open
every file (failures are swallowed), keep those that open and are non-empty,
and return the kept list with its length.  Note: despite its docstring, this
version does NOT re-admit the first file when everything is filtered out. -/
def validate_workable_files (files : List InFile) :
    List Effect × (List InFile × Nat) :=
  (files.map fun f => .openDataset f.path,
   let workable_files := files.filter fun f => f.openable && !_is_file_empty f.tree
   (workable_files, workable_files.length))

end StitcheeFileOps

namespace LegacyFileOps

/-- Model of the legacy `validate_workable_files`
(`concatenator/dataset_and_group_handling.py:333`, same in
`concatenator/file_ops.py:82`): filter, then re-admit the first original file
when the filter removed everything from a non-empty input list (GitHub issue
153). -/
def validate_workable_files (files : List InFile) : List InFile × Nat :=
  let workable_files := files.filter fun f => f.openable && !_is_file_empty f.tree
  match files with
  | [] => (workable_files, workable_files.length)
  | f0 :: _ =>
    if workable_files.length = 0 then ([f0], 1)
    else (workable_files, workable_files.length)

end LegacyFileOps

namespace Concatenate

/-- The two supported method names (`src/stitchee/concatenate.py:22`). -/
def SUPPORTED_CONCAT_METHODS : List String := ["xarray-concat", "xarray-combine"]

/-- Model of `validate_concat_method_and_dim`
(`src/stitchee/concatenate.py:118`): returns emitted warnings and either unit
or the raised validation error. -/
def validate_concat_method_and_dim (concat_method : String) (concat_dim : String) :
    List String × Except PyError Unit :=
  if ¬ (concat_method ∈ SUPPORTED_CONCAT_METHODS) then
    ([], .error (.valueError "Unexpected concatenation method"))
  else if concat_method == "xarray-concat" && concat_dim == "" then
    ([], .error (.valueError "concat_dim is required when using xarray-concat method"))
  else if concat_method == "xarray-combine" && concat_dim != "" then
    (["concat_dim was specified but will not be used because xarray-combine was selected"],
     .ok ())
  else ([], .ok ())

/-- Model of `_create_concat_function` (`src/stitchee/concatenate.py:142`): it
validates, then builds a partially applied xarray function whose only
observable part here is the validation outcome. -/
def _create_concat_function (concat_method : String) (concat_dim : String) :
    List String × Except PyError Unit :=
  validate_concat_method_and_dim concat_method concat_dim

/-- Model of `_get_sort_value` (`src/stitchee/concatenate.py:198`): the file
index when no sorting variable is given (`if not sorting_variable`), else the
first flattened value of that variable; `KeyError` when the variable is absent
and `IndexError` when it is empty. -/
def _get_sort_value (datatree : DTree) (sorting_variable : Option String) (index : Nat) :
    Except PyError Int :=
  if pyFalsy sorting_variable then .ok index
  else
    match sorting_variable with
    | none => .ok index
    | some name =>
      match datatree.vars.lookup name with
      | none => .error (.keyError name)
      | some [] => .error .indexError
      | some (v :: _) => .ok v

/-- Set equality of node-key lists, as Python's `set(...) != set(...)`. -/
def nodeSetEq (a b : List String) : Bool :=
  a.all (fun k => k ∈ b) && b.all (fun k => k ∈ a)

/-- Model of `_check_dataset_consistency` (`src/stitchee/concatenate.py:179`). -/
def _check_dataset_consistency (datatree : DTree) (expected_keys : Option (List String)) :
    Except PyError (List String) :=
  match expected_keys with
  | none => .ok datatree.nodes
  | some ks =>
    if nodeSetEq datatree.nodes ks then .ok ks
    else .error (.keyError "mismatched dataset nodes")

/-- Stable insertion of one keyed pair into a key-sorted list, placing it after
all existing entries with keys not exceeding its own. -/
def insortKey {α : Type} : (Int × α) → List (Int × α) → List (Int × α)
  | x, [] => [x]
  | x, y :: t => if y.1 ≤ x.1 then y :: insortKey x t else x :: y :: t

/-- Left fold of stable insertions: processed prefix is kept sorted. -/
def pySortedAux {α : Type} : List (Int × α) → List (Int × α) → List (Int × α)
  | acc, [] => acc
  | acc, x :: t => pySortedAux (insortKey x acc) t

/-- Model of Python `sorted(loaded_data)` on `(sort_value, datatree)` pairs: a
stable sort ascending by the numeric key.  (CPython compares the datatree
components only on key ties; the verified statements all have distinct keys.) -/
def pySorted {α : Type} (l : List (Int × α)) : List (Int × α) := pySortedAux [] l

/-- Loop of `_load_and_sort_datatrees` (`src/stitchee/concatenate.py:163-173`):
open each file, check node-key consistency against the first file, compute the
sort value, and accumulate `(sort_value, datatree)` pairs; the first error is
re-raised.  Returns the open-effect trace alongside the result. -/
def _load_and_sort_go (sorting_variable : Option String) :
    List InFile → Nat → Option (List String) →
    List Effect × Except PyError (List (Int × DTree))
  | [], _, _ => ([], .ok [])
  | f :: rest, i, expected_keys =>
    if f.openable then
      match _check_dataset_consistency f.dtree expected_keys with
      | .error e => ([.openDataset f.path], .error e)
      | .ok keys =>
        match _get_sort_value f.dtree sorting_variable i with
        | .error e => ([.openDataset f.path], .error e)
        | .ok v =>
          let r := _load_and_sort_go sorting_variable rest (i + 1) (some keys)
          (.openDataset f.path :: r.1, r.2.map fun l => (v, f.dtree) :: l)
    else ([.openDataset f.path], .error .osError)

/-- Model of `_load_and_sort_datatrees` (`src/stitchee/concatenate.py:156`):
load all files, then return the datatrees sorted by sort value. -/
def _load_and_sort_datatrees (input_files : List InFile)
    (sorting_variable : Option String) : List Effect × Except PyError (List DTree) :=
  let r := _load_and_sort_go sorting_variable input_files 0 none
  (r.1, r.2.map fun loaded_data => (pySorted loaded_data).map Prod.snd)

/-- Values of the variable `dimvar` in one datatree (empty if absent). -/
def dimValsOf (dimvar : String) (t : DTree) : List Int := (t.vars.lookup dimvar).getD []

/-- Model of the `dimvar` content of the `_concatenate_datatrees` output
(`src/stitchee/concatenate.py:214`): `xr.concat` stacks each sorted dataset's
values of that variable along the concat dimension in list order. -/
def concatenatedDimValues (input_files : List InFile) (sorting_variable : Option String)
    (dimvar : String) : Except PyError (List Int) :=
  (_load_and_sort_datatrees input_files sorting_variable).2.map fun trees =>
    trees.flatMap fun t => dimValsOf dimvar t

/-- Model of `concatenate` (`src/stitchee/concatenate.py:33`): the ordered
pipeline of the orchestrator, returning the effect trace, the emitted warnings
and the result (output path, `""` for the soft no-workable-files exit, or the
raised error). -/
def concatenate (files_to_concat : List InFile) (out : OutSpec)
    (concat_method : String) (concat_dim : String)
    (sorting_variable : Option String) (overwrite_output_file : Bool) :
    List Effect × List String × Except PyError String :=
  if files_to_concat.isEmpty then
    ([], [], .error (.valueError "files_to_concat cannot be empty"))
  else
    match _create_concat_function concat_method concat_dim with
    | (warns, .error e) => ([], warns, .error e)
    | (warns, .ok _) =>
      let w := StitcheeFileOps.validate_workable_files files_to_concat
      let input_files := w.2.1
      let num_input_files := w.2.2
      if num_input_files = 0 then (w.1, warns, .ok "")
      else
        match StitcheeFileOps.validate_output_path out overwrite_output_file with
        | (ef2, .error e) => (w.1 ++ ef2, warns, .error e)
        | (ef2, .ok output_file) =>
          if num_input_files = 1 then
            (w.1 ++ ef2 ++ [.copyFile (((input_files.head?).map InFile.path).getD "") output_file],
             warns, .ok output_file)
          else
            match _load_and_sort_datatrees input_files sorting_variable with
            | (ef3, .error e) => (w.1 ++ ef2 ++ ef3, warns, .error e)
            | (ef3, .ok _) => (w.1 ++ ef2 ++ ef3 ++ [.writeOutput output_file],
                warns, .ok output_file)

end Concatenate

/-- C7: calling `concatenate` with an empty `files_to_concat` list raises the
`ValueError` "files_to_concat cannot be empty" immediately: the effect trace is
empty (no file I/O has happened) and the error is this `ValueError`, never a
downstream `KeyError` or `IndexError`. -/
theorem C7_empty_input_list (out : OutSpec) (concat_method concat_dim : String)
    (sorting_variable : Option String) (overwrite : Bool) :
    Concatenate.concatenate [] out concat_method concat_dim sorting_variable overwrite
      = ([], [], .error (.valueError "files_to_concat cannot be empty")) := rfl

/-- Concrete file and output spec for closed pipeline statements. -/
def fileC8 : InFile :=
  { path := "g1.nc", openable := true,
    tree := .mk [("v", { isMaskedArr := false, fill := some 0,
                         elems := [{ masked := false, val := some 3 }] })] .nil,
    dtree := { nodes := ["/"], vars := [("step", [3])] } }

/-- Output spec used by the closed pipeline statements: a fresh file path. -/
def outC8 : OutSpec := { path := "out.nc", isDir := false, isFile := false }

/-- C8: requesting the `xarray-concat` method with an empty `concat_dim` makes
`concatenate` raise the method/dimension-mismatch `ValueError` with an empty
effect trace (no input file opened); conversely `xarray-combine` with a
non-empty `concat_dim` passes validation with a warning and no error. -/
theorem C8_method_dim_validation :
    (∀ (files : List InFile) (out : OutSpec) (sv : Option String) (ow : Bool),
      files ≠ [] →
      Concatenate.concatenate files out "xarray-concat" "" sv ow
        = ([], [],
           .error (.valueError "concat_dim is required when using xarray-concat method"))) ∧
    (∀ d : String, d ≠ "" →
      Concatenate._create_concat_function "xarray-combine" d
        = (["concat_dim was specified but will not be used because xarray-combine was selected"],
           .ok ())) := by
  constructor
  · intro files out sv ow h
    match files with
    | [] => exact absurd rfl h
    | f :: fs => rfl
  · intro d hd
    unfold Concatenate._create_concat_function Concatenate.validate_concat_method_and_dim
    have h1 : (("xarray-combine" : String) ∈ Concatenate.SUPPORTED_CONCAT_METHODS) := by decide
    rw [if_neg (by simpa using h1)]
    have hx : (("xarray-combine" : String) == "xarray-concat") = false := by decide
    rw [if_neg (by simp [hx])]
    have hy : (("xarray-combine" : String) == "xarray-combine") = true := by decide
    rw [if_pos (by simp [hy, bne_iff_ne, hd])]

/-- C8 witness: the theorem applied at a concrete one-file list and a concrete
non-empty dimension name. -/
theorem C8_method_dim_validation_witness :
    Concatenate.concatenate [fileC8] outC8 "xarray-concat" "" none false
      = ([], [],
         .error (.valueError "concat_dim is required when using xarray-concat method")) ∧
    Concatenate._create_concat_function "xarray-combine" "step"
      = (["concat_dim was specified but will not be used because xarray-combine was selected"],
         .ok ()) :=
  ⟨C8_method_dim_validation.1 [fileC8] outC8 none false (by simp),
   C8_method_dim_validation.2 "step" (by simp)⟩

/-- Concrete openable but empty input file (no variables, no groups) for C4. -/
def fileEmptyC4 : InFile :=
  { path := "empty.nc", openable := true, tree := .mk [] .nil,
    dtree := { nodes := ["/"], vars := [] } }

/-- C4: the current `validate_workable_files` (`src/stitchee/file_ops.py:89`)
does NOT re-admit the first file: on a non-empty input list whose only file is
empty it returns the empty workable list with count 0, although its own
docstring (and the claim) promise the first file back; the legacy
`concatenator` version does re-admit it. -/
theorem C4_no_first_file_readmission :
    (StitcheeFileOps.validate_workable_files [fileEmptyC4]).2 = ([], 0) ∧
    LegacyFileOps.validate_workable_files [fileEmptyC4] = ([fileEmptyC4], 1) ∧
    ([fileEmptyC4] : List InFile) ≠ [] := by
  refine ⟨by decide, by decide, by simp⟩

namespace Concatenate

theorem insortKey_perm {α : Type} (x : Int × α) (l : List (Int × α)) :
    List.Perm (insortKey x l) (x :: l) := by
  induction l with
  | nil => rfl
  | cons y t ih =>
    by_cases h : y.1 ≤ x.1
    · rw [insortKey, if_pos h]
      exact (ih.cons y).trans (List.Perm.swap x y t)
    · rw [insortKey, if_neg h]

theorem pySortedAux_perm {α : Type} (l acc : List (Int × α)) :
    List.Perm (pySortedAux acc l) (acc ++ l) := by
  induction l generalizing acc with
  | nil => simp [pySortedAux]
  | cons x t ih =>
    rw [pySortedAux]
    refine (ih (insortKey x acc)).trans ?_
    refine (List.Perm.append_right t ((insortKey_perm x acc))).trans ?_
    exact List.perm_middle.symm

theorem pySorted_perm {α : Type} (l : List (Int × α)) : List.Perm (pySorted l) l :=
  pySortedAux_perm l []

theorem insortKey_pairwise {α : Type} (x : Int × α) (l : List (Int × α))
    (h : l.Pairwise fun a b => a.1 ≤ b.1) :
    (insortKey x l).Pairwise fun a b => a.1 ≤ b.1 := by
  induction l with
  | nil => simp [insortKey]
  | cons y t ih =>
    rcases List.pairwise_cons.mp h with ⟨hy, ht⟩
    by_cases hle : y.1 ≤ x.1
    · rw [insortKey, if_pos hle]
      refine List.pairwise_cons.mpr ⟨?_, ih ht⟩
      intro z hz
      rcases List.mem_cons.mp ((insortKey_perm x t).mem_iff.mp hz) with h0 | hmem
      · rw [h0]; exact hle
      · exact hy z hmem
    · rw [insortKey, if_neg hle]
      refine List.pairwise_cons.mpr ⟨?_, h⟩
      intro z hz
      rcases List.mem_cons.mp hz with h0 | hmem
      · rw [h0]; omega
      · have := hy z hmem
        omega

theorem pySortedAux_pairwise {α : Type} (l acc : List (Int × α))
    (h : acc.Pairwise fun a b => a.1 ≤ b.1) :
    (pySortedAux acc l).Pairwise fun a b => a.1 ≤ b.1 := by
  induction l generalizing acc with
  | nil => exact h
  | cons x t ih => exact ih (insortKey x acc) (insortKey_pairwise x acc h)

theorem pySorted_pairwise {α : Type} (l : List (Int × α)) :
    (pySorted l).Pairwise fun a b => a.1 ≤ b.1 :=
  pySortedAux_pairwise l [] (by simp)

theorem insortKey_of_ge {α : Type} (x : Int × α) (l : List (Int × α))
    (h : ∀ y ∈ l, y.1 ≤ x.1) : insortKey x l = l ++ [x] := by
  induction l with
  | nil => rfl
  | cons y t ih =>
    rw [insortKey, if_pos (h y (by simp)), ih fun z hz => h z (by simp [hz])]
    rfl

theorem pySortedAux_of_pairwise {α : Type} (l acc : List (Int × α))
    (h : (acc ++ l).Pairwise fun a b => a.1 ≤ b.1) :
    pySortedAux acc l = acc ++ l := by
  induction l generalizing acc with
  | nil => simp [pySortedAux]
  | cons x t ih =>
    have hcross : ∀ y ∈ acc, y.1 ≤ x.1 := by
      intro y hy
      exact (List.pairwise_append.mp h).2.2 y hy x (by simp)
    rw [pySortedAux, insortKey_of_ge x acc hcross, ih (acc ++ [x]) (by simpa using h)]
    simp

theorem pySorted_of_pairwise {α : Type} (l : List (Int × α))
    (h : l.Pairwise fun a b => a.1 ≤ b.1) : pySorted l = l :=
  pySortedAux_of_pairwise l [] (by simpa using h)

end Concatenate

namespace Concatenate

/-- Consistency of the node-key sets along the file list, exactly as the
`expected_keys` state evolves in `_load_and_sort_datatrees`: the first file
fixes the expected set, every later file must be set-equal to it. -/
def consistencyChain : Option (List String) → List InFile → Bool
  | _, [] => true
  | none, f :: rest => consistencyChain (some f.dtree.nodes) rest
  | some ks, f :: rest => nodeSetEq f.dtree.nodes ks && consistencyChain (some ks) rest

/-- The `(sort_value, datatree)` pairs produced when no sorting variable is
given: each file keyed by its ordinal index. -/
def idxPairs : Nat → List InFile → List (Int × DTree)
  | _, [] => []
  | i, f :: rest => ((i : Int), f.dtree) :: idxPairs (i + 1) rest

theorem idxPairs_key_ge (files : List InFile) : ∀ (i : Nat), ∀ p ∈ idxPairs i files,
    (i : Int) ≤ p.1 := by
  induction files with
  | nil => intro i p hp; simp [idxPairs] at hp
  | cons f rest ih =>
    intro i p hp
    rcases List.mem_cons.mp hp with h0 | hmem
    · rw [h0]
    · have := ih (i + 1) p hmem
      omega

theorem idxPairs_pairwise (files : List InFile) : ∀ i : Nat,
    (idxPairs i files).Pairwise fun a b => a.1 ≤ b.1 := by
  induction files with
  | nil => intro i; simp [idxPairs]
  | cons f rest ih =>
    intro i
    refine List.pairwise_cons.mpr ⟨?_, ih (i + 1)⟩
    intro p hp
    have := idxPairs_key_ge rest (i + 1) p hp
    show (i : Int) ≤ p.1
    omega

theorem idxPairs_map_snd (files : List InFile) : ∀ i : Nat,
    (idxPairs i files).map Prod.snd = files.map InFile.dtree := by
  induction files with
  | nil => intro i; rfl
  | cons f rest ih => intro i; simp [idxPairs, ih (i + 1)]

theorem load_go_none (files : List InFile)
    (hopen : ∀ f ∈ files, f.openable = true) : ∀ (i : Nat) (exp : Option (List String)),
    consistencyChain exp files = true →
    _load_and_sort_go none files i exp
      = (files.map fun f => .openDataset f.path, .ok (idxPairs i files)) := by
  induction files with
  | nil => intro i exp _; rfl
  | cons f rest ih =>
    intro i exp hchain
    have hf : f.openable = true := hopen f (by simp)
    have hrest : ∀ g ∈ rest, g.openable = true := fun g hg => hopen g (by simp [hg])
    cases exp with
    | none =>
      have hch : consistencyChain (some f.dtree.nodes) rest = true := hchain
      have hcheck : _check_dataset_consistency f.dtree none = .ok f.dtree.nodes := rfl
      have hsv : _get_sort_value f.dtree none i = .ok (i : Int) := rfl
      simp only [_load_and_sort_go, if_pos hf, hcheck, hsv,
        ih hrest (i + 1) (some f.dtree.nodes) hch]
      simp [idxPairs, Except.map]
    | some ks =>
      have hsplit := Bool.and_eq_true_iff.mp (show (_ && _) = true from hchain)
      have hcheck : _check_dataset_consistency f.dtree (some ks) = .ok ks := by
        simp [_check_dataset_consistency, hsplit.1]
      have hsv : _get_sort_value f.dtree none i = .ok (i : Int) := rfl
      simp only [_load_and_sort_go, if_pos hf, hcheck, hsv,
        ih hrest (i + 1) (some ks) hsplit.2]
      simp [idxPairs, Except.map]

end Concatenate

/-- C10: when no `sorting_variable` is supplied, each file's sort key is its
ordinal index, so `_load_and_sort_datatrees` returns the loaded datatrees in
exactly the input-file order: the sort is the identity permutation. -/
theorem C10_input_order_without_sorting_variable (files : List InFile)
    (hopen : ∀ f ∈ files, f.openable = true)
    (hcons : Concatenate.consistencyChain none files = true) :
    Concatenate._load_and_sort_datatrees files none
      = (files.map fun f => .openDataset f.path, .ok (files.map InFile.dtree)) := by
  unfold Concatenate._load_and_sort_datatrees
  rw [Concatenate.load_go_none files hopen 0 none hcons]
  simp only [Except.map]
  rw [Concatenate.pySorted_of_pairwise _ (Concatenate.idxPairs_pairwise files 0),
    Concatenate.idxPairs_map_snd files 0]

/-- Concrete input files for the C10 witness (node-key lists set-equal but in
different order). -/
def fC10a : InFile :=
  { path := "a.nc", openable := true, tree := .mk [] .nil,
    dtree := { nodes := ["/", "/g"], vars := [("step", [5])] } }

/-- Second file for the C10 witness. -/
def fC10b : InFile :=
  { path := "b.nc", openable := true, tree := .mk [] .nil,
    dtree := { nodes := ["/g", "/"], vars := [("step", [2])] } }

/-- C10 witness: two concrete files come back in input order even though the
second has the smaller `step` value. -/
theorem C10_input_order_witness :
    Concatenate._load_and_sort_datatrees [fC10a, fC10b] none
      = ([fC10a, fC10b].map fun f => .openDataset f.path,
         .ok ([fC10a, fC10b].map InFile.dtree)) :=
  C10_input_order_without_sorting_variable [fC10a, fC10b] (by decide) (by decide)

namespace Concatenate

/-- First value of the `dimvar` variable of a datatree (what `_get_sort_value`
extracts when that variable is the sorting variable). -/
def firstValOf (dimvar : String) (t : DTree) : Int := (dimValsOf dimvar t).headD 0

/-- Last value of the `dimvar` variable of a datatree. -/
def lastValOf (dimvar : String) (t : DTree) : Int := (dimValsOf dimvar t).getLastD 0

theorem get_sort_value_of_vals (dv : String) (hdv : dv ≠ "") (t : DTree) (i : Nat)
    (hsome : (t.vars.lookup dv).isSome = true) (hne : dimValsOf dv t ≠ []) :
    _get_sort_value t (some dv) i = .ok (firstValOf dv t) := by
  obtain ⟨l, hl⟩ := Option.isSome_iff_exists.mp hsome
  match l, hl with
  | [], hl => rw [dimValsOf, hl] at hne; simp at hne
  | v :: vs, hl =>
    have hfalsy : pyFalsy (some dv) = false := by
      simp [pyFalsy, hdv]
    unfold _get_sort_value
    rw [hfalsy]
    simp only [Bool.false_eq_true, if_false, hl, firstValOf, dimValsOf]
    rfl

theorem load_go_some (dv : String) (hdv : dv ≠ "") (files : List InFile)
    (hopen : ∀ f ∈ files, f.openable = true)
    (hvals : ∀ f ∈ files, (f.dtree.vars.lookup dv).isSome = true ∧
      dimValsOf dv f.dtree ≠ []) :
    ∀ (i : Nat) (exp : Option (List String)), consistencyChain exp files = true →
    _load_and_sort_go (some dv) files i exp
      = (files.map fun f => .openDataset f.path,
         .ok (files.map fun f => (firstValOf dv f.dtree, f.dtree))) := by
  induction files with
  | nil => intro i exp _; rfl
  | cons f rest ih =>
    intro i exp hchain
    have hf : f.openable = true := hopen f (by simp)
    have hrest : ∀ g ∈ rest, g.openable = true := fun g hg => hopen g (by simp [hg])
    have hvrest : ∀ g ∈ rest, (g.dtree.vars.lookup dv).isSome = true ∧
        dimValsOf dv g.dtree ≠ [] := fun g hg => hvals g (by simp [hg])
    have hsv := get_sort_value_of_vals dv hdv f.dtree i
      (hvals f (by simp)).1 (hvals f (by simp)).2
    cases exp with
    | none =>
      have hch : consistencyChain (some f.dtree.nodes) rest = true := hchain
      have hcheck : _check_dataset_consistency f.dtree none = .ok f.dtree.nodes := rfl
      simp only [_load_and_sort_go, if_pos hf, hcheck, hsv,
        ih hrest hvrest (i + 1) (some f.dtree.nodes) hch]
      simp [Except.map]
    | some ks =>
      have hsplit := Bool.and_eq_true_iff.mp (show (_ && _) = true from hchain)
      have hcheck : _check_dataset_consistency f.dtree (some ks) = .ok ks := by
        simp [_check_dataset_consistency, hsplit.1]
      simp only [_load_and_sort_go, if_pos hf, hcheck, hsv,
        ih hrest hvrest (i + 1) (some ks) hsplit.2]
      simp [Except.map]

end Concatenate

theorem chain_le_flatten : ∀ L : List (List Int),
    (∀ l ∈ L, l ≠ [] ∧ List.Chain' (· ≤ ·) l) →
    List.Chain' (fun a b => a.getLastD 0 ≤ b.headD 0) L →
    List.Chain' (· ≤ ·) L.flatten
  | [], _, _ => by simp
  | [l], h, _ => by simpa using (h l (by simp)).2
  | l1 :: l2 :: rest, h, hb => by
    have h1 := h l1 (by simp)
    have h2 := h l2 (by simp)
    have ih := chain_le_flatten (l2 :: rest) (fun l hl => h l (by simp [hl]))
      (List.chain'_cons.mp hb).2
    rw [List.flatten_cons]
    rw [List.chain'_append]
    refine ⟨h1.2, ih, ?_⟩
    intro x hx y hy
    have hbd : l1.getLastD 0 ≤ l2.headD 0 := (List.chain'_cons.mp hb).1
    have hxval : l1.getLastD 0 = x := by
      rw [List.getLastD_eq_getLast?]
      rw [show l1.getLast? = some x from hx]
      rfl
    match l2, h2 with
    | z :: zs, h2 =>
      have hyval : y = z := by
        rw [List.flatten_cons, List.cons_append] at hy
        exact (by simpa using hy : z = y).symm
      rw [← hxval, hyval]
      exact hbd

open Concatenate in
/-- C5 (amended): when a `sorting_variable` is supplied (taken equal to the
concat-dimension variable), the orchestrator stable-sorts the loaded datasets
ascending by each file's first value of that variable; if moreover every
file's values of that variable are non-decreasing, the files' first values
are pairwise distinct, and a file whose first value is smaller ends no later
than the other file begins, then the concatenated output's concat-dimension
values are non-decreasing.  Without those interval conditions the output can
decrease: see the counterexample. -/
theorem C5_sorting_and_output_order (files : List InFile) (dv : String) (hdv : dv ≠ "")
    (hopen : ∀ f ∈ files, f.openable = true)
    (hcons : consistencyChain none files = true)
    (hvals : ∀ f ∈ files, (f.dtree.vars.lookup dv).isSome = true ∧
      dimValsOf dv f.dtree ≠ [] ∧ List.Chain' (· ≤ ·) (dimValsOf dv f.dtree))
    (hdist : (files.map fun f => firstValOf dv f.dtree).Pairwise (· ≠ ·))
    (hsep : ∀ f ∈ files, ∀ g ∈ files,
      firstValOf dv f.dtree < firstValOf dv g.dtree →
      lastValOf dv f.dtree ≤ firstValOf dv g.dtree) :
    ∃ trees : List DTree,
      (_load_and_sort_datatrees files (some dv)).2 = .ok trees ∧
      List.Perm trees (files.map InFile.dtree) ∧
      List.Chain' (· ≤ ·) (trees.map (firstValOf dv)) ∧
      concatenatedDimValues files (some dv) dv
        = .ok ((trees.map (dimValsOf dv)).flatten) ∧
      List.Chain' (· ≤ ·) ((trees.map (dimValsOf dv)).flatten) := by
  have hgo := load_go_some dv hdv files hopen
    (fun f hf => ⟨(hvals f hf).1, (hvals f hf).2.1⟩) 0 none hcons
  have hload2 : (_load_and_sort_datatrees files (some dv)).2
      = .ok ((pySorted (files.map fun f => (firstValOf dv f.dtree, f.dtree))).map
          Prod.snd) := by
    unfold _load_and_sort_datatrees
    rw [hgo]
    simp [Except.map]
  have hperm : List.Perm (pySorted (files.map fun f => (firstValOf dv f.dtree, f.dtree)))
      (files.map fun f => (firstValOf dv f.dtree, f.dtree)) :=
    pySorted_perm _
  have hmem : ∀ p ∈ pySorted (files.map fun f => (firstValOf dv f.dtree, f.dtree)),
      p.1 = firstValOf dv p.2 ∧ ∃ f, f ∈ files ∧ p.2 = f.dtree := by
    intro p hp
    obtain ⟨f, hf, hfp⟩ := List.mem_map.mp (hperm.mem_iff.mp hp)
    exact ⟨by rw [← hfp], f, hf, by rw [← hfp]⟩
  have hple := pySorted_pairwise (files.map fun f => (firstValOf dv f.dtree, f.dtree))
  have hne : (pySorted (files.map fun f => (firstValOf dv f.dtree, f.dtree))).Pairwise
      fun a b => a.1 ≠ b.1 := by
    have h1 : ((files.map fun f => (firstValOf dv f.dtree, f.dtree)).map
        Prod.fst).Pairwise (· ≠ ·) := by
      rw [List.map_map]
      exact hdist
    have h2 := ((hperm.map Prod.fst).pairwise_iff
      (fun hxy => Ne.symm hxy)).mpr h1
    exact List.pairwise_map.mp h2
  have hplt : (pySorted (files.map fun f => (firstValOf dv f.dtree, f.dtree))).Pairwise
      fun a b => a.1 < b.1 :=
    (hple.and hne).imp fun h => lt_of_le_of_ne h.1 h.2
  refine ⟨_, hload2, ?_, ?_, ?_, ?_⟩
  · have hpm : (files.map fun f => (firstValOf dv f.dtree, f.dtree)).map Prod.snd
        = files.map InFile.dtree := by
      rw [List.map_map]
      rfl
    exact hpm ▸ hperm.map Prod.snd
  · have hmm : ((pySorted (files.map fun f => (firstValOf dv f.dtree, f.dtree))).map
        Prod.snd).map (firstValOf dv)
        = (pySorted (files.map fun f => (firstValOf dv f.dtree, f.dtree))).map
            fun p => firstValOf dv p.2 := by
      rw [List.map_map]
      rfl
    rw [hmm, List.map_congr_left fun p hp => ((hmem p hp).1).symm]
    exact (List.pairwise_map.mpr hple).chain'
  · unfold concatenatedDimValues
    rw [hload2]
    rfl
  · apply chain_le_flatten
    · intro l hl
      obtain ⟨t, ht, hlt⟩ := List.mem_map.mp hl
      obtain ⟨p, hp, hpt⟩ := List.mem_map.mp ht
      obtain ⟨_, f, hf, hfp⟩ := hmem p hp
      rw [← hlt, ← hpt, hfp]
      exact ⟨(hvals f hf).2.1, (hvals f hf).2.2⟩
    · have hSb : (pySorted (files.map fun f => (firstValOf dv f.dtree, f.dtree))).Pairwise
          fun p q => (dimValsOf dv p.2).getLastD 0 ≤ (dimValsOf dv q.2).headD 0 := by
        refine List.Pairwise.imp_of_mem ?_ hplt
        intro p q hp hq hltpq
        obtain ⟨hkp, f, hf, hfp⟩ := hmem p hp
        obtain ⟨hkq, g, hg, hgq⟩ := hmem q hq
        have hlt2 : firstValOf dv f.dtree < firstValOf dv g.dtree := by
          rw [← hfp, ← hgq, ← hkp, ← hkq]
          exact hltpq
        have := hsep f hf g hg hlt2
        show (dimValsOf dv p.2).getLastD 0 ≤ (dimValsOf dv q.2).headD 0
        rw [hfp, hgq]
        exact this
      rw [List.map_map]
      exact (List.pairwise_map.mpr hSb).chain'

/-- Executable non-decreasing test, used to decide `List.Chain'` on concrete lists. -/
def nonDecB : List Int → Bool
  | [] => true
  | [_] => true
  | a :: b :: t => decide (a ≤ b) && nonDecB (b :: t)

theorem chain_iff_nonDecB : ∀ l : List Int, List.Chain' (· ≤ ·) l ↔ nonDecB l = true
  | [] => by simp [nonDecB]
  | [a] => by simp [nonDecB]
  | a :: b :: t => by
    rw [List.chain'_cons]
    show _ ↔ (decide (a ≤ b) && nonDecB (b :: t)) = true
    rw [Bool.and_eq_true_iff]
    simp only [decide_eq_true_eq]
    exact and_congr Iff.rfl (chain_iff_nonDecB (b :: t))

/-- First file of the spec's sort scenario: `step` values `[9, 10, 11]`. -/
def fC5a : InFile :=
  { path := "p1.nc", openable := true, tree := .mk [] .nil,
    dtree := { nodes := ["/", "/Group1"],
               vars := [("step", [9, 10, 11]), ("Group1/var1", [9, 10, 11])] } }

/-- Second file of the spec's sort scenario: `step` values `[12, 13, 14]`. -/
def fC5b : InFile :=
  { path := "p2.nc", openable := true, tree := .mk [] .nil,
    dtree := { nodes := ["/", "/Group1"],
               vars := [("step", [12, 13, 14]), ("Group1/var1", [12, 13, 14])] } }

/-- Third file of the spec's sort scenario: `step` values `[6, 7, 8]`. -/
def fC5c : InFile :=
  { path := "p3.nc", openable := true, tree := .mk [] .nil,
    dtree := { nodes := ["/", "/Group1"],
               vars := [("step", [6, 7, 8]), ("Group1/var1", [6, 7, 8])] } }

/-- C5 witness: the amended theorem applied to the spec's three-file scenario
(`[9,10,11]`, `[12,13,14]`, `[6,7,8]` sorted by `step`). -/
theorem C5_sorting_and_output_order_witness :
    ∃ trees : List DTree,
      (Concatenate._load_and_sort_datatrees [fC5a, fC5b, fC5c] (some "step")).2
        = .ok trees ∧
      List.Perm trees ([fC5a, fC5b, fC5c].map InFile.dtree) ∧
      List.Chain' (· ≤ ·) (trees.map (Concatenate.firstValOf "step")) ∧
      Concatenate.concatenatedDimValues [fC5a, fC5b, fC5c] (some "step") "step"
        = .ok ((trees.map (Concatenate.dimValsOf "step")).flatten) ∧
      List.Chain' (· ≤ ·) ((trees.map (Concatenate.dimValsOf "step")).flatten) :=
  C5_sorting_and_output_order [fC5a, fC5b, fC5c] "step" (by decide) (by decide)
    (by decide)
    (by
      intro f hf
      fin_cases hf <;>
        exact ⟨by decide, by decide, (chain_iff_nonDecB _).mpr (by decide)⟩)
    (by decide) (by decide)

/-- Overlapping-range file for the C5 counterexample: `step` values `[1, 100]`. -/
def fC5x : InFile :=
  { path := "x.nc", openable := true, tree := .mk [] .nil,
    dtree := { nodes := ["/"], vars := [("step", [1, 100])] } }

/-- Second overlapping-range file for the C5 counterexample: `step` values `[2, 3]`. -/
def fC5y : InFile :=
  { path := "y.nc", openable := true, tree := .mk [] .nil,
    dtree := { nodes := ["/"], vars := [("step", [2, 3])] } }

/-- C5 counterexample: with sorting variable `step`, two files whose value
ranges overlap (`[1, 100]` and `[2, 3]`) are sorted by first value into the
same order, and the concatenated `step` values `[1, 100, 2, 3]` are NOT
non-decreasing, refuting the unconditional claim. -/
theorem C5_overlap_counterexample :
    Concatenate.concatenatedDimValues [fC5x, fC5y] (some "step") "step"
      = .ok [1, 100, 2, 3] ∧
    ¬ List.Chain' (· ≤ ·) ([1, 100, 2, 3] : List Int) := by
  constructor
  · rfl
  · intro h
    exact absurd ((chain_iff_nonDecB _).mp h) (by decide)
